import Mathlib

/-!
Verification development for the gunrock sparse-graph / operator-engine core.

Shallow embedding of:
* `gunrock/util/parameters.h` — the command-line parameter registry
  (`Parameters::Use`, `Set`, `Get`, `Check_Required`);
* `gunrock/util/types.cuh` — numeric limits, sentinels and validity
  (`InvalidValue<int>`, `isValid`);
* `codesnaps/annotated_primitives/bfs_functor.cuh` — the BFS functor pair
  (`CondEdge`, `ApplyEdge`, `CondVertex`) and the Advance admission discipline;
* `gunrock/graph/csc.cuh` — the CSC graph store (`Allocate`, `Release`,
  `FromCoo`, `Display`).

Machine integers are modelled as `Int`/`Nat`; none of the verified claims
exercises overflow.  Collaborator code that is not part of the sources here
(`util::BinarySearch`, `Coo::Order`, `Array1D`) is modelled from the spec, as
marked in the corresponding doc comments.
-/

namespace Gunrock

/-- CUDA status codes used by the sources (`cudaSuccess` is the zero/success
sentinel; `GRError(e, msg)` prints and returns `e`). -/
inductive CudaError where
  | cudaSuccess
  | cudaErrorMemoryAllocation
  | cudaErrorInvalidValue
  | cudaErrorInvalidSymbol
deriving DecidableEq, Repr

/-- Runtime type descriptors stood in for `const std::type_info*`; only the
`bool` / non-`bool` distinction is inspected by `Parameters::Use`. -/
inductive TypeDesc where
  | tBool
  | tInt
  | tLong
  | tFloat
  | tDouble
  | tString
deriving DecidableEq, Repr

/-! ### Parameter registry (`gunrock/util/parameters.h`) -/

def NO_ARGUMENT : Nat := 0x01
def REQUIRED_ARGUMENT : Nat := 0x02
def OPTIONAL_ARGUMENT : Nat := 0x04
def SINGLE_VALUE : Nat := 0x20
def MULTI_VALUE : Nat := 0x40
def REQUIRED_PARAMETER : Nat := 0x100
def OPTIONAL_PARAMETER : Nat := 0x200

/-- `Parameter_Item` of `parameters.h`. -/
structure Parameter_Item where
  name : String
  flag : Nat
  default_value : String
  description : String
  value : String
  use_default : Bool
  value_type_info : TypeDesc
  file_name : String
  line_num : Nat
deriving DecidableEq, Repr

/-- `std::map<std::string, Parameter_Item>`: an association list kept sorted
by key, with at most one binding per key. -/
def PMap : Type := List (String × Parameter_Item)

/-- `p_map.find(name)`. -/
def mapFind (name : String) : List (String × Parameter_Item) → Option Parameter_Item
  | [] => none
  | (k, v) :: rest => if k = name then some v else mapFind name rest

/-- `p_map[name] = item`: replace the binding when the key is present,
otherwise insert at the sorted position. -/
def mapInsert (name : String) (item : Parameter_Item) :
    List (String × Parameter_Item) → List (String × Parameter_Item)
  | [] => [(name, item)]
  | (k, v) :: rest =>
    if name < k then (name, item) :: (k, v) :: rest
    else if name = k then (name, item) :: rest
    else (k, v) :: mapInsert name item rest

/-- The `Parameter_Item` that `Parameters::Use` builds before installing it. -/
def mkItem (name : String) (flag : Nat) (default_value description : String)
    (tinfo : TypeDesc) (file_name : String) (line_num : Nat) : Parameter_Item :=
  { name := name
    flag := flag
    default_value := default_value
    description := description
    value := default_value
    use_default := true
    value_type_info := tinfo
    file_name := file_name
    line_num := line_num }

/-- `Parameters::Use(name, flag, default_value, description, value_type_info,
file_name, line_num)`: the `NO_ARGUMENT`-implies-`bool` check, then the
duplicate test keyed by call-site identity, then `p_map[name] = p_item`. -/
def Parameters.Use (m : List (String × Parameter_Item)) (name : String) (flag : Nat)
    (default_value description : String) (tinfo : TypeDesc)
    (file_name : String) (line_num : Nat) :
    CudaError × List (String × Parameter_Item) :=
  if flag &&& NO_ARGUMENT = NO_ARGUMENT ∧ tinfo ≠ TypeDesc.tBool then
    (CudaError.cudaErrorInvalidValue, m)
  else
    let p_item := mkItem name flag default_value description tinfo file_name line_num
    match mapFind name m with
    | some prev =>
      if prev.file_name ≠ file_name ∨ prev.line_num ≠ line_num then
        (CudaError.cudaErrorInvalidSymbol, m)
      else
        (CudaError.cudaSuccess, mapInsert name p_item m)
    | none => (CudaError.cudaSuccess, mapInsert name p_item m)

/-- `Parameters::Set(name, value)`: error when the name was never declared,
otherwise store the value and clear `use_default`. -/
def Parameters.Set (m : List (String × Parameter_Item)) (name value : String) :
    CudaError × List (String × Parameter_Item) :=
  match mapFind name m with
  | none => (CudaError.cudaErrorInvalidValue, m)
  | some it =>
    (CudaError.cudaSuccess,
      mapInsert name { it with value := value, use_default := false } m)

/-- `Parameters::Get(name, value)`: error when the name was never declared,
otherwise the stored value. -/
def Parameters.Get (m : List (String × Parameter_Item)) (name : String) :
    CudaError × Option String :=
  match mapFind name m with
  | none => (CudaError.cudaErrorInvalidValue, none)
  | some it => (CudaError.cudaSuccess, some it.value)

/-- `Parameters::Check_Required`: walk the map; for every item flagged
`REQUIRED_PARAMETER` whose value is empty, print its name to `stderr`
(the second component collects those prints, in iteration order); finally
return `cudaSuccess`. -/
def Parameters.Check_Required : List (String × Parameter_Item) → CudaError × List String
  | [] => (CudaError.cudaSuccess, [])
  | p :: rest =>
    let r := Parameters.Check_Required rest
    if (p.2.flag &&& REQUIRED_PARAMETER == REQUIRED_PARAMETER) && (p.2.value == "") then
      (r.1, p.2.name :: r.2)
    else r

theorem mapFind_mapInsert_self (name : String) (it : Parameter_Item)
    (m : List (String × Parameter_Item)) :
    mapFind name (mapInsert name it m) = some it := by
  induction m with
  | nil => simp [mapInsert, mapFind]
  | cons p rest ih =>
    obtain ⟨k, v⟩ := p
    by_cases h1 : name < k
    · simp [mapInsert, mapFind, h1]
    · by_cases h2 : name = k
      · simp [mapInsert, mapFind, h1, h2]
      · have h3 : ¬(k = name) := fun h => h2 h.symm
        simp [mapInsert, mapFind, h1, h2, h3, ih]

theorem mapFind_mapInsert_ne (name other : String) (it : Parameter_Item)
    (m : List (String × Parameter_Item)) (hne : other ≠ name) :
    mapFind other (mapInsert name it m) = mapFind other m := by
  have hne' : ¬(name = other) := fun h => hne h.symm
  induction m with
  | nil => simp [mapInsert, mapFind, hne']
  | cons p rest ih =>
    obtain ⟨k, v⟩ := p
    by_cases h1 : name < k
    · simp [mapInsert, mapFind, h1, hne']
    · by_cases h2 : name = k
      · subst h2
        simp [mapInsert, mapFind, h1, hne']
      · simp [mapInsert, mapFind, h1, h2]
        by_cases h4 : k = other
        · simp [h4]
        · simp [h4, ih]

/-- C8: `Parameters::Use(name, ...)` returns the duplicate-definition error
(`cudaErrorInvalidSymbol`) exactly when the name is already declared from a
different call site (file name or line number differs), leaving the map
unchanged; a repeated `Use` of the same name from the exact same file and
line succeeds and re-installs the item. -/
theorem parameters_use_duplicate_by_call_site
    (m : List (String × Parameter_Item)) (name : String) (flag : Nat)
    (dv desc : String) (ti : TypeDesc) (file : String) (line : Nat)
    (prev : Parameter_Item)
    (hnoarg : ¬(flag &&& NO_ARGUMENT = NO_ARGUMENT ∧ ti ≠ TypeDesc.tBool))
    (hfound : mapFind name m = some prev) :
    ((prev.file_name ≠ file ∨ prev.line_num ≠ line) →
      Parameters.Use m name flag dv desc ti file line =
        (CudaError.cudaErrorInvalidSymbol, m)) ∧
    (prev.file_name = file → prev.line_num = line →
      (Parameters.Use m name flag dv desc ti file line).1 = CudaError.cudaSuccess ∧
      mapFind name (Parameters.Use m name flag dv desc ti file line).2 =
        some (mkItem name flag dv desc ti file line)) := by
  constructor
  · intro hdiff
    simp [Parameters.Use, hnoarg, hfound, hdiff]
  · intro hf hl
    have hsame : ¬(prev.file_name ≠ file ∨ prev.line_num ≠ line) := by
      simp [hf, hl]
    simp [Parameters.Use, hnoarg, hfound, hsame, mapFind_mapInsert_self]

/-- A registry holding one parameter declared at call site `bfs.cu:10`. -/
def c8Item : Parameter_Item :=
  mkItem "src" OPTIONAL_PARAMETER "0" "source vertex" TypeDesc.tInt "bfs.cu" 10

def c8Map : List (String × Parameter_Item) := [("src", c8Item)]

theorem parameters_use_duplicate_by_call_site_witness :
    Parameters.Use c8Map "src" OPTIONAL_PARAMETER "0" "source vertex"
        TypeDesc.tInt "sssp.cu" 10 = (CudaError.cudaErrorInvalidSymbol, c8Map) ∧
    (Parameters.Use c8Map "src" OPTIONAL_PARAMETER "0" "source vertex"
        TypeDesc.tInt "bfs.cu" 10).1 = CudaError.cudaSuccess :=
  ⟨(parameters_use_duplicate_by_call_site c8Map "src" OPTIONAL_PARAMETER "0"
      "source vertex" TypeDesc.tInt "sssp.cu" 10 c8Item
      (by decide) (by decide)).1 (by decide),
   ((parameters_use_duplicate_by_call_site c8Map "src" OPTIONAL_PARAMETER "0"
      "source vertex" TypeDesc.tInt "bfs.cu" 10 c8Item
      (by decide) (by decide)).2 (by decide) (by decide)).1⟩

/-- C10: `Parameters::Set(name, value)` on a name never declared via `Use`
returns a non-success status and leaves the map unchanged, so a subsequent
`Get(name)` still fails; on a declared name it succeeds, the stored value
becomes the given value with `use_default` cleared, and no other entry is
touched. -/
theorem parameters_set_semantics
    (m : List (String × Parameter_Item)) (name value : String) :
    (mapFind name m = none →
      Parameters.Set m name value = (CudaError.cudaErrorInvalidValue, m) ∧
      Parameters.Get (Parameters.Set m name value).2 name =
        (CudaError.cudaErrorInvalidValue, none)) ∧
    (∀ it, mapFind name m = some it →
      (Parameters.Set m name value).1 = CudaError.cudaSuccess ∧
      mapFind name (Parameters.Set m name value).2 =
        some { it with value := value, use_default := false } ∧
      ∀ other, other ≠ name →
        mapFind other (Parameters.Set m name value).2 = mapFind other m) := by
  constructor
  · intro hnone
    constructor
    · simp [Parameters.Set, hnone]
    · simp [Parameters.Set, Parameters.Get, hnone]
  · intro it hsome
    refine ⟨?_, ?_, ?_⟩
    · simp [Parameters.Set, hsome]
    · simp [Parameters.Set, hsome, mapFind_mapInsert_self]
    · intro other hother
      simp [Parameters.Set, hsome, mapFind_mapInsert_ne _ _ _ _ hother]

theorem parameters_set_semantics_witness :
    (mapFind "max-iter" c8Map = none →
      Parameters.Set c8Map "max-iter" "5" = (CudaError.cudaErrorInvalidValue, c8Map) ∧
      Parameters.Get (Parameters.Set c8Map "max-iter" "5").2 "max-iter" =
        (CudaError.cudaErrorInvalidValue, none)) ∧
    ((Parameters.Set c8Map "src" "7").1 = CudaError.cudaSuccess ∧
      mapFind "src" (Parameters.Set c8Map "src" "7").2 =
        some { c8Item with value := "7", use_default := false }) :=
  ⟨fun h => (parameters_set_semantics c8Map "max-iter" "5").1 h,
   ⟨((parameters_set_semantics c8Map "src" "7").2 c8Item (by decide)).1,
    ((parameters_set_semantics c8Map "src" "7").2 c8Item (by decide)).2.1⟩⟩

/-- The names that `Check_Required` reports: declared items flagged
`REQUIRED_PARAMETER` whose stored value is the empty string. -/
def missingRequired (m : List (String × Parameter_Item)) : List String :=
  (m.filter (fun p =>
    (p.2.flag &&& REQUIRED_PARAMETER == REQUIRED_PARAMETER) && (p.2.value == ""))).map
    (fun p => p.2.name)

/-- C9 (amended): `Parameters::Check_Required` prints to `stderr` exactly the
names of the declared parameters flagged `REQUIRED_PARAMETER` whose value is
empty, but its return value is `cudaSuccess` unconditionally — the missing
names are not available to the caller through the result. -/
theorem check_required_prints_missing_returns_success
    (m : List (String × Parameter_Item)) :
    Parameters.Check_Required m = (CudaError.cudaSuccess, missingRequired m) := by
  induction m with
  | nil => rfl
  | cons p rest ih =>
    by_cases h : ((p.2.flag &&& REQUIRED_PARAMETER == REQUIRED_PARAMETER)
        && (p.2.value == "")) = true
    · simp [Parameters.Check_Required, missingRequired, h, ih, List.filter_cons]
    · simp [Parameters.Check_Required, missingRequired, h, ih, List.filter_cons]

/-- A registry with one required parameter whose value is absent. -/
def c9Item : Parameter_Item :=
  mkItem "graph-file" (REQUIRED_PARAMETER + REQUIRED_ARGUMENT) "" "input graph"
    TypeDesc.tString "app.cu" 3

def c9Map : List (String × Parameter_Item) := [("graph-file", c9Item)]

/-- C9 counterexample: with a required parameter missing, `Check_Required`
still returns plain `cudaSuccess` — the same status as for the empty registry —
so the caller cannot obtain the list of missing required names from its
result, contrary to the claim. -/
theorem check_required_result_carries_no_names :
    missingRequired c9Map = ["graph-file"] ∧
    (Parameters.Check_Required c9Map).1 = CudaError.cudaSuccess ∧
    (Parameters.Check_Required c9Map).1 = (Parameters.Check_Required []).1 := by
  refine ⟨by decide, by decide, by decide⟩

/-! ### Value domain (`gunrock/util/types.cuh`) -/

/-- `InvalidValue<int>()` returns `(int)-1`. -/
def InvalidValue_int : Int := -1

/-- `isValid(val)` returns `val >= 0` (the commented-out alternative in the
source is `val != InvalidValue<T>()`). -/
def isValid (val : Int) : Bool := decide (0 ≤ val)

/-! ### BFS functor (`codesnaps/annotated_primitives/bfs_functor.cuh`)

The three sentinel constants are not defined inside the snippet; they are the
"invalid" sentinels of the value domain, `InvalidValue<int>() = -1` for the
`int` instantiation (`types.cuh`). -/

def INVALID_PREDECESSOR_ID : Int := InvalidValue_int
def INVALID_NODE_VALUE : Int := InvalidValue_int
def INVALID_NODE_ID : Int := InvalidValue_int

/-- `ProblemData::DataSlice` for BFS: the per-traversal label and predecessor
arrays, modelled as total functions over vertex ids. -/
structure DataSlice where
  d_labels : Int → Int
  d_preds : Int → Int

/-- `atomicCAS(&cell[idx], cmp, val)`: one atomic action; returns the old
value and the updated array (the store happens only when `old == cmp`). -/
def atomicCAS (cell : Int → Int) (idx cmp val : Int) : Int × (Int → Int) :=
  let old := cell idx
  if old = cmp then (old, fun x => if x = idx then val else cell x)
  else (old, cell)

/-- `BFSFunctor::CondEdge(s_id, d_id, p)`: with predecessor marking, CAS
`d_preds[d_id]` from invalid to `s_id`; otherwise CAS `d_labels[d_id]` from
invalid to `s_id + 1`.  True exactly when the CAS returned the invalid
sentinel, i.e. when this call performed the store. -/
def BFSFunctor.CondEdge (markPredecessors : Bool) (s_id d_id : Int) (p : DataSlice) :
    Bool × DataSlice :=
  if markPredecessors then
    let r := atomicCAS p.d_preds d_id INVALID_PREDECESSOR_ID s_id
    (decide (r.1 = INVALID_PREDECESSOR_ID), { p with d_preds := r.2 })
  else
    let r := atomicCAS p.d_labels d_id INVALID_NODE_VALUE (s_id + 1)
    (decide (r.1 = INVALID_NODE_VALUE), { p with d_labels := r.2 })

/-- `BFSFunctor::ApplyEdge(s_id, d_id, p)`: with predecessor marking, set
`d_labels[d_id] = d_labels[s_id] + 1`; otherwise a no-op. -/
def BFSFunctor.ApplyEdge (markPredecessors : Bool) (s_id d_id : Int) (p : DataSlice) :
    DataSlice :=
  if markPredecessors then
    { p with d_labels := fun x => if x = d_id then p.d_labels s_id + 1 else p.d_labels x }
  else p

/-- `BFSFunctor::CondVertex(node, p)`: `node != INVALID_NODE_ID`. -/
def BFSFunctor.CondVertex (node : Int) : Bool := decide (node ≠ INVALID_NODE_ID)

/-- `BFSFunctor::ApplyVertex(node, p)`: no-op for BFS. -/
def BFSFunctor.ApplyVertex (_node : Int) (p : DataSlice) : DataSlice := p

/-- One processed edge of an Advance step: the edge, whether its `CondEdge`
claim succeeded, and the indices of `d_labels` stored to while processing it
(by `ApplyEdge` after a successful claim when marking predecessors, and by
the successful CAS itself otherwise — reading the two functor bodies, those
are the only stores into `d_labels`). -/
structure AdvEvent where
  edge : Int × Int
  won : Bool
  labelWrites : List Int
deriving DecidableEq

/-- Advance processes an edge: evaluate `CondEdge`; on success run
`ApplyEdge` and put the destination into the output frontier. -/
def advanceStep (markPredecessors : Bool) (p : DataSlice) (e : Int × Int) :
    DataSlice × AdvEvent :=
  let c := BFSFunctor.CondEdge markPredecessors e.1 e.2 p
  if c.1 then
    (BFSFunctor.ApplyEdge markPredecessors e.1 e.2 c.2, ⟨e, true, [e.2]⟩)
  else (c.2, ⟨e, false, []⟩)

/-- One Advance invocation over a set of edges.  The only shared-memory
primitive is the single atomic CAS inside `CondEdge`, so a concurrent
execution is equivalent to some sequential order of the per-edge bodies; the
edge list argument ranges over every such order. -/
def advanceRun (markPredecessors : Bool) :
    List (Int × Int) → DataSlice → DataSlice × List AdvEvent
  | [], p => (p, [])
  | e :: rest, p =>
    let r := advanceStep markPredecessors p e
    let rr := advanceRun markPredecessors rest r.1
    (rr.1, r.2 :: rr.2)

/-- How many edges towards `d` had a successful `CondEdge` claim. -/
def winnersFor (d : Int) (log : List AdvEvent) : Nat :=
  (log.filter (fun ev => (ev.edge.2 == d) && ev.won)).length

/-- How many stores into `d_labels[d]` the step performed. -/
def labelWriteCount (d : Int) (log : List AdvEvent) : Nat :=
  (log.map (fun ev => (ev.labelWrites.filter (fun i => i == d)).length)).sum

/-- The cell the `CondEdge` CAS claims for destination `d`:
`d_preds[d]` when marking predecessors, `d_labels[d]` otherwise. -/
def claimCell (markPredecessors : Bool) (p : DataSlice) (d : Int) : Int :=
  if markPredecessors then p.d_preds d else p.d_labels d

theorem advanceStep_event_shape (mp : Bool) (p : DataSlice) (e : Int × Int) :
    (advanceStep mp p e).2 = ⟨e, true, [e.2]⟩ ∨ (advanceStep mp p e).2 = ⟨e, false, []⟩ := by
  by_cases h : (BFSFunctor.CondEdge mp e.1 e.2 p).1
  · exact Or.inl (by simp [advanceStep, h])
  · exact Or.inr (by simp [advanceStep, h])

theorem advanceStep_claimed (mp : Bool) (p : DataSlice) (e : Int × Int)
    (hcell : claimCell mp p e.2 ≠ InvalidValue_int) :
    (advanceStep mp p e).1 = p ∧ (advanceStep mp p e).2 = ⟨e, false, []⟩ := by
  cases mp with
  | true =>
    have h : ¬(p.d_preds e.2 = INVALID_PREDECESSOR_ID) := by
      simpa [claimCell, INVALID_PREDECESSOR_ID] using hcell
    constructor <;> simp [advanceStep, BFSFunctor.CondEdge, atomicCAS, h]
  | false =>
    have h : ¬(p.d_labels e.2 = INVALID_NODE_VALUE) := by
      simpa [claimCell, INVALID_NODE_VALUE] using hcell
    constructor <;> simp [advanceStep, BFSFunctor.CondEdge, atomicCAS, h]

theorem advanceStep_other (mp : Bool) (p : DataSlice) (e : Int × Int) (d : Int)
    (hne : e.2 ≠ d) :
    claimCell mp (advanceStep mp p e).1 d = claimCell mp p d := by
  have hne' : ¬(d = e.2) := fun h => hne h.symm
  cases mp with
  | true =>
    by_cases h : p.d_preds e.2 = INVALID_PREDECESSOR_ID
    · simp [advanceStep, BFSFunctor.CondEdge, BFSFunctor.ApplyEdge,
        atomicCAS, claimCell, h, hne']
    · simp [advanceStep, BFSFunctor.CondEdge, BFSFunctor.ApplyEdge,
        atomicCAS, claimCell, h, hne']
  | false =>
    by_cases h : p.d_labels e.2 = INVALID_NODE_VALUE
    · simp [advanceStep, BFSFunctor.CondEdge, BFSFunctor.ApplyEdge,
        atomicCAS, claimCell, h, hne']
    · simp [advanceStep, BFSFunctor.CondEdge, BFSFunctor.ApplyEdge,
        atomicCAS, claimCell, h, hne']

theorem advanceStep_win (mp : Bool) (p : DataSlice) (e : Int × Int)
    (hcell : claimCell mp p e.2 = InvalidValue_int) (hs : 0 ≤ e.1) :
    (advanceStep mp p e).2 = ⟨e, true, [e.2]⟩ ∧
    claimCell mp (advanceStep mp p e).1 e.2 ≠ InvalidValue_int := by
  cases mp with
  | true =>
    have h : p.d_preds e.2 = INVALID_PREDECESSOR_ID := by
      simpa [claimCell, INVALID_PREDECESSOR_ID] using hcell
    constructor
    · simp [advanceStep, BFSFunctor.CondEdge, atomicCAS, h]
    · simp [advanceStep, BFSFunctor.CondEdge, BFSFunctor.ApplyEdge,
        atomicCAS, claimCell, h, InvalidValue_int]
      omega
  | false =>
    have h : p.d_labels e.2 = INVALID_NODE_VALUE := by
      simpa [claimCell, INVALID_NODE_VALUE] using hcell
    constructor
    · simp [advanceStep, BFSFunctor.CondEdge, atomicCAS, h]
    · simp [advanceStep, BFSFunctor.CondEdge, BFSFunctor.ApplyEdge,
        atomicCAS, claimCell, h, InvalidValue_int]
      omega

theorem advanceRun_claimed (mp : Bool) (es : List (Int × Int)) (p : DataSlice) (d : Int)
    (hcell : claimCell mp p d ≠ InvalidValue_int) :
    winnersFor d (advanceRun mp es p).2 = 0 ∧
    claimCell mp (advanceRun mp es p).1 d ≠ InvalidValue_int := by
  induction es generalizing p with
  | nil => exact ⟨rfl, hcell⟩
  | cons e rest ih =>
    by_cases he : e.2 = d
    · have hc : claimCell mp p e.2 ≠ InvalidValue_int := he ▸ hcell
      obtain ⟨h1, h2⟩ := advanceStep_claimed mp p e hc
      have := ih p hcell
      simp [advanceRun, h1, h2, winnersFor] at this ⊢
      exact this
    · have hc : claimCell mp (advanceStep mp p e).1 d = claimCell mp p d :=
        advanceStep_other mp p e d he
      have hrec := ih (advanceStep mp p e).1 (hc ▸ hcell)
      rcases advanceStep_event_shape mp p e with hev | hev <;>
        simp [advanceRun, hev, winnersFor, he] at hrec ⊢ <;> exact hrec

theorem advanceRun_unclaimed (mp : Bool) (es : List (Int × Int)) (p : DataSlice) (d : Int)
    (hcell : claimCell mp p d = InvalidValue_int)
    (hsrc : ∀ e ∈ es, 0 ≤ e.1)
    (hex : ∃ e ∈ es, e.2 = d) :
    winnersFor d (advanceRun mp es p).2 = 1 ∧
    claimCell mp (advanceRun mp es p).1 d ≠ InvalidValue_int := by
  induction es generalizing p with
  | nil => exact absurd hex (by simp)
  | cons e rest ih =>
    by_cases he : e.2 = d
    · have hc : claimCell mp p e.2 = InvalidValue_int := he ▸ hcell
      obtain ⟨hev, hcell2⟩ := advanceStep_win mp p e hc (hsrc e (by simp))
      have hcell2' : claimCell mp (advanceStep mp p e).1 d ≠ InvalidValue_int :=
        he ▸ hcell2
      have hrest := advanceRun_claimed mp rest (advanceStep mp p e).1 d hcell2'
      simp [advanceRun, hev, winnersFor, he] at hrest ⊢
      exact hrest
    · have hc : claimCell mp (advanceStep mp p e).1 d = claimCell mp p d :=
        advanceStep_other mp p e d he
      have hex' : ∃ x ∈ rest, x.2 = d := by
        rcases hex with ⟨x, hx, hxd⟩
        rcases List.mem_cons.mp hx with h | h
        · exact absurd (h ▸ hxd) he
        · exact ⟨x, h, hxd⟩
      have hrec := ih (advanceStep mp p e).1 (hc.trans hcell)
        (fun x hx => hsrc x (List.mem_cons_of_mem _ hx)) hex'
      rcases advanceStep_event_shape mp p e with hev | hev <;>
        simp [advanceRun, hev, winnersFor, he] at hrec ⊢ <;> exact hrec

theorem labelWriteCount_eq_winnersFor (mp : Bool) (es : List (Int × Int))
    (p : DataSlice) (d : Int) :
    labelWriteCount d (advanceRun mp es p).2 = winnersFor d (advanceRun mp es p).2 := by
  induction es generalizing p with
  | nil => rfl
  | cons e rest ih =>
    have ih' := ih (advanceStep mp p e).1
    rcases advanceStep_event_shape mp p e with hev | hev <;>
      by_cases he : e.2 = d <;>
        simp [advanceRun, hev, winnersFor, labelWriteCount, he] at ih' ⊢ <;>
          omega

/-- C1: in one Advance invocation — modelled as an arbitrary sequential order
of the per-edge bodies, which covers every interleaving because the only
shared-memory primitive is the single atomic CAS in `CondEdge` — for every
destination `d` that starts unvisited and is targeted by at least two edges,
exactly one edge's `CondEdge` returns true, exactly one store into
`d_labels[d]` (the `ApplyEdge` mutation, or the claiming CAS itself when not
marking predecessors) is performed, and the claimed cell ends non-invalid
(no lost write). -/
theorem advance_single_winner (mp : Bool) (es : List (Int × Int))
    (p0 : DataSlice) (d : Int)
    (hcell : claimCell mp p0 d = InvalidValue_int)
    (hsrc : ∀ e ∈ es, 0 ≤ e.1)
    (hmulti : 2 ≤ (es.filter (fun e => e.2 == d)).length) :
    winnersFor d (advanceRun mp es p0).2 = 1 ∧
    labelWriteCount d (advanceRun mp es p0).2 = 1 ∧
    claimCell mp (advanceRun mp es p0).1 d ≠ InvalidValue_int := by
  have hex : ∃ e ∈ es, e.2 = d := by
    have hpos : 0 < (es.filter (fun e => e.2 == d)).length := by omega
    rcases List.exists_mem_of_length_pos hpos with ⟨x, hx⟩
    have := List.mem_filter.mp hx
    exact ⟨x, this.1, by simpa using this.2⟩
  obtain ⟨h1, h2⟩ := advanceRun_unclaimed mp es p0 d hcell hsrc hex
  exact ⟨h1, (labelWriteCount_eq_winnersFor mp es p0 d).trans h1, h2⟩

/-- An initial BFS DataSlice: every label and predecessor invalid. -/
def c1Slice : DataSlice :=
  { d_labels := fun _ => InvalidValue_int, d_preds := fun _ => InvalidValue_int }

theorem advance_single_winner_witness :
    winnersFor 1 (advanceRun true [(0, 1), (2, 1)] c1Slice).2 = 1 ∧
    labelWriteCount 1 (advanceRun true [(0, 1), (2, 1)] c1Slice).2 = 1 ∧
    claimCell true (advanceRun true [(0, 1), (2, 1)] c1Slice).1 1 ≠ InvalidValue_int :=
  advance_single_winner true [(0, 1), (2, 1)] c1Slice 1 (by decide)
    (by decide) (by decide)

/-- A BFS state where the root vertex 5 has label 0 and every other label is
still invalid. -/
def c4Slice : DataSlice :=
  { d_labels := fun v => if v = 5 then 0 else InvalidValue_int
    d_preds := fun _ => InvalidValue_int }

/-- C4: with predecessor tracking disabled, `CondEdge(5, 3, p)` on an
unvisited destination succeeds but stores `s_id + 1 = 6` into `d_labels[3]`
— the source vertex id plus one — not `d_labels[5] + 1 = 1`, the source
label plus one that both the claim and the snippet's own prose commentary ("one
plus the source vertex's depth") prescribe. -/
theorem condedge_stores_source_id_plus_one :
    (BFSFunctor.CondEdge false 5 3 c4Slice).1 = true ∧
    (BFSFunctor.CondEdge false 5 3 c4Slice).2.d_labels 3 = 6 ∧
    c4Slice.d_labels 5 + 1 = 1 ∧
    (BFSFunctor.CondEdge false 5 3 c4Slice).2.d_labels 3 ≠ c4Slice.d_labels 5 + 1 := by
  refine ⟨by decide, by decide, by decide, by decide⟩

/-- C5 counterexample: the validity predicate `isValid` of the value domain
is `val >= 0`, not `val != InvalidValue`: it rejects `-2` even though `-2`
differs from the invalid sentinel `-1`. -/
theorem isvalid_rejects_minus_two :
    isValid (-2) = false ∧ (-2 : Int) ≠ InvalidValue_int := by
  refine ⟨by decide, by decide⟩

/-- C5 (amended): the BFS filter condition `CondVertex(v)` is true exactly
when `v` differs from the invalid-id sentinel `-1`; the generic validity
predicate `isValid`, however, accepts exactly the non-negative values, so it
rejects every negative value and not only the sentinel. -/
theorem condvertex_iff_ne_sentinel_and_isvalid_iff_nonneg :
    (∀ v : Int, BFSFunctor.CondVertex v = true ↔ v ≠ -1) ∧
    (∀ v : Int, isValid v = true ↔ 0 ≤ v) := by
  constructor
  · intro v
    simp [BFSFunctor.CondVertex, INVALID_NODE_ID, InvalidValue_int]
  · intro v
    simp [isValid]

/-! ### CSC graph store (`gunrock/graph/csc.cuh`) -/

/-- The CSC arrays of `Csc` (vertex ids as `Int`, matching the default
`VertexT = int`; array positions as `Nat`). -/
structure CscGraph where
  nodes : Nat
  edges : Nat
  column_offsets : List Nat
  row_indices : List Int
  edge_values : List Int
deriving DecidableEq

/-- `column_offsets[k]`. -/
def cscOffsetAt (g : CscGraph) (k : Nat) : Nat := g.column_offsets.getD k 0

/-- One entry of `Csc::Display`'s neighbor listing for `node` at position
`edge`: `"[" + row_indices[edge] (+ "," + edge_values[edge])` closed by
`"], "` or, for the last shown entry, `"]"`. -/
def displayEntry (g : CscGraph) (with_edge_values : Bool) (node edge : Nat) : String :=
  let s := "[" ++ toString (g.row_indices.getD edge 0)
  let s := if with_edge_values then s ++ "," ++ toString (g.edge_values.getD edge 0) else s
  if edge - cscOffsetAt g node ≠ 40 ∧ edge ≠ cscOffsetAt g (node + 1) - 1 then
    s ++ "], "
  else s ++ "]"

/-- The inner loop of `Csc::Display`: `edge` runs from `column_offsets[node]`
while `edge < column_offsets[node+1]` (the fuel argument counts the remaining
iterations), breaking as soon as `edge - column_offsets[node] > 40`. -/
def displayGo (start : Nat) (f : Nat → String) : Nat → Nat → List String
  | _, 0 => []
  | edge, n + 1 =>
    if edge - start > 40 then []
    else f edge :: displayGo start f (edge + 1) n

/-- The neighbor entries `Csc::Display` emits for one vertex. -/
def displayNodeEntries (g : CscGraph) (with_edge_values : Bool) (node : Nat) : List String :=
  displayGo (cscOffsetAt g node) (displayEntry g with_edge_values node)
    (cscOffsetAt g node) (cscOffsetAt g (node + 1) - cscOffsetAt g node)

/-- Whether `Csc::Display` appends the `"..."` truncation marker for `node`:
`column_offsets[node+1] - column_offsets[node] > 40`. -/
def displayNodeMarker (g : CscGraph) (node : Nat) : Bool :=
  decide (cscOffsetAt g (node + 1) - cscOffsetAt g node > 40)

/-- The full line `Csc::Display` prints for one vertex. -/
def displayNodeLine (g : CscGraph) (with_edge_values : Bool) (node : Nat) : String :=
  String.join (displayNodeEntries g with_edge_values node) ++
    (if displayNodeMarker g node then "..." else "") ++
    " : v " ++ toString node ++ " " ++ toString (cscOffsetAt g node)

/-- `Csc::Display(graph_prefix, nodes_to_show, with_edge_values)`: the printed
lines (header, then one line per shown vertex) paired with the state of the
graph afterwards — the method only reads, so the graph comes back as it was. -/
def Csc.Display (g : CscGraph) (prefixStr : String) (nodes_to_show : Nat)
    (with_edge_values : Bool) : List String × CscGraph :=
  let nshow := if nodes_to_show > g.nodes then g.nodes else nodes_to_show
  ((prefixStr ++ "Graph containing " ++ toString g.nodes ++ " vertices, " ++
      toString g.edges ++ " edges, in CSC format. Neighbor list of first " ++
      toString nshow ++ " nodes :") ::
    (List.range nshow).map (fun node => displayNodeLine g with_edge_values node),
   g)

theorem displayGo_length (start : Nat) (f : Nat → String) :
    ∀ n ofs, (displayGo start f (start + ofs) n).length =
      if ofs > 40 then 0 else min n (41 - ofs) := by
  intro n
  induction n with
  | zero =>
    intro ofs
    by_cases h : ofs > 40 <;> simp [displayGo, h]
  | succ n ih =>
    intro ofs
    have harith : start + ofs - start = ofs := by omega
    simp only [displayGo, harith]
    by_cases h : ofs > 40
    · simp [h]
    · rw [if_neg h, if_neg h, List.length_cons,
        show start + ofs + 1 = start + (ofs + 1) from by omega, ih (ofs + 1)]
      by_cases h41 : ofs + 1 > 40
      · rw [if_pos h41]
        omega
      · rw [if_neg h41]
        omega

/-- C6 (amended): for any vertex whose neighbor-list length exceeds the
per-vertex cap of 40, `Csc::Display` emits exactly 41 neighbor entries for it
(the loop breaks only once `edge - column_offsets[node]` exceeds 40, so
offsets 0 through 40 are all emitted) followed by the `"..."` truncation
marker, and `Display` never mutates the graph state. -/
theorem display_truncates_after_41_entries (g : CscGraph) (prefixStr : String)
    (nodes_to_show node : Nat) (with_edge_values : Bool)
    (hdeg : cscOffsetAt g (node + 1) - cscOffsetAt g node > 40) :
    (displayNodeEntries g with_edge_values node).length = 41 ∧
    displayNodeMarker g node = true ∧
    (Csc.Display g prefixStr nodes_to_show with_edge_values).2 = g := by
  refine ⟨?_, by simpa [displayNodeMarker] using hdeg, rfl⟩
  have h := displayGo_length (cscOffsetAt g node)
    (displayEntry g with_edge_values node)
    (cscOffsetAt g (node + 1) - cscOffsetAt g node) 0
  simp only [Nat.add_zero] at h
  rw [displayNodeEntries, h]
  simp
  omega

/-- A CSC graph with a single vertex of in-degree 100. -/
def c6Graph : CscGraph :=
  { nodes := 1
    edges := 100
    column_offsets := [0, 100]
    row_indices := (List.range 100).map Int.ofNat
    edge_values := [] }

/-- C6 counterexample: on a vertex of degree 100 with cap 40, `Csc::Display`
emits 41 neighbor entries before the truncation marker, not 40 as claimed:
the loop body runs for offsets 0..40 and only breaks at offset 41. -/
theorem display_entry_count_is_41_not_40 :
    cscOffsetAt c6Graph 1 - cscOffsetAt c6Graph 0 = 100 ∧
    (displayNodeEntries c6Graph false 0).length = 41 ∧
    (displayNodeEntries c6Graph false 0).length ≠ 40 := by
  have h := displayGo_length (cscOffsetAt c6Graph 0)
    (displayEntry c6Graph false 0) (cscOffsetAt c6Graph 0 + 100) 0
  refine ⟨by decide, ?_, ?_⟩ <;>
    · rw [show (displayNodeEntries c6Graph false 0) =
          displayGo 0 (displayEntry c6Graph false 0) 0 100 from rfl]
      have h2 := displayGo_length 0 (displayEntry c6Graph false 0) 100 0
      simp only [Nat.add_zero] at h2
      rw [h2]
      decide

theorem display_truncates_after_41_entries_witness :
    (displayNodeEntries c6Graph true 0).length = 41 ∧
    displayNodeMarker c6Graph 0 = true ∧
    (Csc.Display c6Graph "" 40 true).2 = c6Graph :=
  display_truncates_after_41_entries c6Graph "" 40 0 true (by decide)

/-! ### Allocation and release (`Csc::Allocate`, `Csc::Release`)

`Array1D` itself (`array_utils.cuh`) is not among the sources here; its
per-array `Allocate`/`Release` is modelled from the spec: an allocation
attempt either succeeds, leaving the array allocated, or reports an error,
leaving it unallocated; a release frees whatever is allocated and is safe on
an unallocated array.  What is translated from `csc.cuh` is the sequencing:
each sub-step's status is tested and returned immediately on failure. -/

/-- Which of the five sub-structures of a `Csc` are currently allocated. -/
structure CscArrays where
  base : Bool
  column_offsets : Bool
  row_indices : Bool
  node_values : Bool
  edge_values : Bool
deriving DecidableEq

def noArrays : CscArrays := ⟨false, false, false, false, false⟩

def allArrays : CscArrays := ⟨true, true, true, true, true⟩

/-- Modelled from the spec: the outcome each underlying `Array1D::Allocate`
(resp. `GraphBase::Allocate`) call would report for the requested sizes. -/
structure AllocEnv where
  base : CudaError
  column_offsets : CudaError
  row_indices : CudaError
  node_values : CudaError
  edge_values : CudaError

/-- `Csc::Allocate(nodes, edges)`: `BaseGraph::Allocate`, then
`column_offsets`, `row_indices`, `node_values`, `edge_values`, each guarded
by `if (retval = ...) return retval;`. -/
def Csc.Allocate (env : AllocEnv) (s : CscArrays) : CudaError × CscArrays :=
  if env.base ≠ CudaError.cudaSuccess then (env.base, s)
  else
    let s1 := { s with base := true }
    if env.column_offsets ≠ CudaError.cudaSuccess then (env.column_offsets, s1)
    else
      let s2 := { s1 with column_offsets := true }
      if env.row_indices ≠ CudaError.cudaSuccess then (env.row_indices, s2)
      else
        let s3 := { s2 with row_indices := true }
        if env.node_values ≠ CudaError.cudaSuccess then (env.node_values, s3)
        else
          let s4 := { s3 with node_values := true }
          if env.edge_values ≠ CudaError.cudaSuccess then (env.edge_values, s4)
          else (CudaError.cudaSuccess, { s4 with edge_values := true })

/-- `Csc::Release`: releases `column_offsets`, `row_indices`, `node_values`,
`edge_values` and the base, each sub-release succeeding whether or not the
array is allocated (spec: release is safe to call multiple times), so the
result is always `cudaSuccess` with nothing left allocated. -/
def Csc.Release (_s : CscArrays) : CudaError × CscArrays :=
  (CudaError.cudaSuccess, noArrays)

/-- C7: in the multi-step `Csc::Allocate`, the first failing sub-allocation
aborts the remaining steps — later arrays stay unallocated — and its status
is returned unchanged; when nothing fails all five arrays are allocated; and
`Csc::Release` is safe on every partly allocated state, returning success
with everything released. -/
theorem csc_allocate_first_error_release_safe (env : AllocEnv) :
    (env.base ≠ CudaError.cudaSuccess →
      Csc.Allocate env noArrays = (env.base, noArrays)) ∧
    (env.base = CudaError.cudaSuccess →
      env.column_offsets ≠ CudaError.cudaSuccess →
      Csc.Allocate env noArrays = (env.column_offsets, ⟨true, false, false, false, false⟩)) ∧
    (env.base = CudaError.cudaSuccess →
      env.column_offsets = CudaError.cudaSuccess →
      env.row_indices ≠ CudaError.cudaSuccess →
      Csc.Allocate env noArrays = (env.row_indices, ⟨true, true, false, false, false⟩)) ∧
    (env.base = CudaError.cudaSuccess →
      env.column_offsets = CudaError.cudaSuccess →
      env.row_indices = CudaError.cudaSuccess →
      env.node_values ≠ CudaError.cudaSuccess →
      Csc.Allocate env noArrays = (env.node_values, ⟨true, true, true, false, false⟩)) ∧
    (env.base = CudaError.cudaSuccess →
      env.column_offsets = CudaError.cudaSuccess →
      env.row_indices = CudaError.cudaSuccess →
      env.node_values = CudaError.cudaSuccess →
      env.edge_values ≠ CudaError.cudaSuccess →
      Csc.Allocate env noArrays = (env.edge_values, ⟨true, true, true, true, false⟩)) ∧
    (env.base = CudaError.cudaSuccess →
      env.column_offsets = CudaError.cudaSuccess →
      env.row_indices = CudaError.cudaSuccess →
      env.node_values = CudaError.cudaSuccess →
      env.edge_values = CudaError.cudaSuccess →
      Csc.Allocate env noArrays = (CudaError.cudaSuccess, allArrays)) ∧
    (∀ s : CscArrays, Csc.Release s = (CudaError.cudaSuccess, noArrays)) := by
  refine ⟨?_, ?_, ?_, ?_, ?_, ?_, fun s => rfl⟩ <;>
    · intros
      simp_all [Csc.Allocate, noArrays, allArrays]

/-- An allocation run whose third sub-step (`row_indices`) fails. -/
def c7Env : AllocEnv :=
  { base := CudaError.cudaSuccess
    column_offsets := CudaError.cudaSuccess
    row_indices := CudaError.cudaErrorMemoryAllocation
    node_values := CudaError.cudaSuccess
    edge_values := CudaError.cudaSuccess }

theorem csc_allocate_first_error_release_safe_witness :
    Csc.Allocate c7Env noArrays =
      (CudaError.cudaErrorMemoryAllocation, ⟨true, true, false, false, false⟩) ∧
    Csc.Release ⟨true, true, false, false, false⟩ = (CudaError.cudaSuccess, noArrays) :=
  ⟨(csc_allocate_first_error_release_safe c7Env).2.2.1 (by decide) (by decide) (by decide),
   (csc_allocate_first_error_release_safe c7Env).2.2.2.2.2.2 ⟨true, true, false, false, false⟩⟩

/-! ### COO to CSC conversion (`Csc::FromCoo`)

A COO edge is an `EdgePairT` (`x` = row = source, `y` = column = destination)
together with its attached edge value.  `Coo::Order(BY_COLUMN_ASCENDING)` and
`util::BinarySearch` are not among the sources here and are modelled from the
spec, as marked below. -/

structure CooEdge where
  x : Int
  y : Int
  val : Int
deriving DecidableEq

def dfltEdge : CooEdge := ⟨0, 0, 0⟩

/-- The comparison `Coo::Order(BY_COLUMN_ASCENDING)` sorts by: ascending
destination (column). -/
def colLe (a b : CooEdge) : Prop := a.y ≤ b.y

instance : DecidableRel colLe := fun a b => Int.decLe a.y b.y

/-- Modelled from the spec: step (3) of `fromEdgeList` reorders the edge list
into ascending order on the compression dimension — a sort over whole edge
tuples, so values travel with their edge; stability is not required.  This is
`Coo::Order(BY_COLUMN_ASCENDING)` (`coo.cuh`, not part of the sources here),
rendered as an insertion sort. -/
def insertByY (e : CooEdge) : List CooEdge → List CooEdge
  | [] => [e]
  | f :: rest => if e.y ≤ f.y then e :: f :: rest else f :: insertByY e rest

def orderByColumn : List CooEdge → List CooEdge
  | [] => []
  | e :: rest => insertByY e (orderByColumn rest)

/-- Modelled from the spec: `util::BinarySearch(column, edge_pairs, 0, edges,
column_edge_compare)` (`binary_search.cuh`, not part of the sources here)
returns the position of the first edge of the ordered list whose
compression-dimension value is `>= column`, i.e. the first position where
`edge_pair.y < column` fails, or `edges` when every edge satisfies it. -/
def firstGE (k : Int) : List CooEdge → Nat
  | [] => 0
  | e :: rest => if e.y < k then firstGE k rest + 1 else 0

/-- `Csc::FromCoo`: copy `nodes`/`edges`, order the COO by column, assign
`row_indices[i] = edge_pairs[i].x` and `edge_values[i]` in that order, and
set `column_offsets[c]` by binary search for `c < nodes` and to `edges` for
`c = nodes`. -/
def Csc.FromCoo (nodes : Nat) (pairs : List CooEdge) : CscGraph :=
  let sorted := orderByColumn pairs
  { nodes := nodes
    edges := pairs.length
    column_offsets := (List.range (nodes + 1)).map
      (fun c => if c < nodes then firstGE (c : Int) sorted else pairs.length)
    row_indices := sorted.map (fun e => e.x)
    edge_values := sorted.map (fun e => e.val) }

/-- The edge tuples stored in a compressed graph, read back off the arrays:
for each column `c`, the rows (with values) in
`row_indices[column_offsets[c] .. column_offsets[c+1])`. -/
def CscGraph.expand (g : CscGraph) : List (Int × Int × Int) :=
  (List.range g.nodes).flatMap (fun c =>
    (List.range' (cscOffsetAt g c) (cscOffsetAt g (c + 1) - cscOffsetAt g c)).map
      (fun i => (g.row_indices.getD i 0, (c : Int), g.edge_values.getD i 0)))

def tupleOf (e : CooEdge) : Int × Int × Int := (e.x, e.y, e.val)

theorem insertByY_perm (e : CooEdge) (l : List CooEdge) :
    (insertByY e l).Perm (e :: l) := by
  induction l with
  | nil => exact List.Perm.refl _
  | cons f rest ih =>
    by_cases h : e.y ≤ f.y
    · simp [insertByY, h]
    · simp only [insertByY, h, if_neg, ite_false]
      exact ((ih.cons f).trans (List.Perm.swap e f rest))

theorem orderByColumn_perm (l : List CooEdge) : (orderByColumn l).Perm l := by
  induction l with
  | nil => exact List.Perm.refl _
  | cons e rest ih =>
    exact (insertByY_perm e (orderByColumn rest)).trans (ih.cons e)

theorem insertByY_sorted (e : CooEdge) (l : List CooEdge)
    (hl : List.Sorted colLe l) : List.Sorted colLe (insertByY e l) := by
  induction l with
  | nil => simp [insertByY, List.Sorted]
  | cons f rest ih =>
    obtain ⟨hf, hrest⟩ := List.sorted_cons.mp hl
    by_cases h : e.y ≤ f.y
    · rw [insertByY, if_pos h]
      refine List.sorted_cons.mpr ⟨?_, hl⟩
      intro b hb
      rcases List.mem_cons.mp hb with hb | hb
      · exact hb ▸ h
      · exact le_trans h (hf b hb)
    · rw [insertByY, if_neg h]
      refine List.sorted_cons.mpr ⟨?_, ih hrest⟩
      intro b hb
      rcases List.mem_cons.mp (((insertByY_perm e rest).mem_iff).mp hb) with hb | hb
      · exact hb ▸ le_of_not_le h
      · exact hf b hb

theorem orderByColumn_sorted (l : List CooEdge) :
    List.Sorted colLe (orderByColumn l) := by
  induction l with
  | nil => simp [orderByColumn, List.Sorted]
  | cons e rest ih => exact insertByY_sorted e (orderByColumn rest) ih

theorem orderByColumn_eq_of_sorted (l : List CooEdge)
    (hl : List.Sorted colLe l) : orderByColumn l = l := by
  induction l with
  | nil => rfl
  | cons e rest ih =>
    obtain ⟨he, hrest⟩ := List.sorted_cons.mp hl
    rw [orderByColumn, ih hrest]
    cases rest with
    | nil => rfl
    | cons f rest2 => rw [insertByY, if_pos (show e.y ≤ f.y from he f (by simp))]

theorem firstGE_le_length (k : Int) (l : List CooEdge) : firstGE k l ≤ l.length := by
  induction l with
  | nil => simp [firstGE]
  | cons e rest ih =>
    by_cases h : e.y < k
    · simp only [firstGE, h, ite_true, List.length_cons]
      omega
    · simp [firstGE, h]

theorem firstGE_mono (k k2 : Int) (l : List CooEdge) (hk : k ≤ k2) :
    firstGE k l ≤ firstGE k2 l := by
  induction l with
  | nil => simp [firstGE]
  | cons e rest ih =>
    by_cases h : e.y < k
    · have h2 : e.y < k2 := lt_of_lt_of_le h hk
      simp [firstGE, h, h2]
      omega
    · simp [firstGE, h]

theorem firstGE_of_all_ge (k : Int) (l : List CooEdge)
    (h : ∀ e ∈ l, k ≤ e.y) : firstGE k l = 0 := by
  cases l with
  | nil => rfl
  | cons e rest =>
    have : ¬(e.y < k) := not_lt.mpr (h e (by simp))
    simp [firstGE, this]

theorem firstGE_eq_filter_lt (k : Int) (l : List CooEdge)
    (hl : List.Sorted colLe l) :
    firstGE k l = (l.filter (fun e => decide (e.y < k))).length := by
  induction l with
  | nil => rfl
  | cons e rest ih =>
    obtain ⟨he, hrest⟩ := List.sorted_cons.mp hl
    by_cases h : e.y < k
    · simp [firstGE, h, List.filter_cons, ih hrest]
    · have hnone : (rest.filter (fun e => decide (e.y < k))).length = 0 := by
        rw [List.length_eq_zero, List.filter_eq_nil_iff]
        intro b hb
        simp only [decide_eq_true_eq, not_lt]
        exact le_trans (not_lt.mp h) (he b hb)
      simp [firstGE, h, List.filter_cons, hnone]

theorem getElem_y_lt_iff (k : Int) (l : List CooEdge) (hl : List.Sorted colLe l) :
    ∀ i (h : i < l.length), (l.get ⟨i, h⟩).y < k ↔ i < firstGE k l := by
  induction l with
  | nil => intro i h; exact absurd h (by simp)
  | cons e rest ih =>
    obtain ⟨he, hrest⟩ := List.sorted_cons.mp hl
    intro i h
    cases i with
    | zero =>
      by_cases hy : e.y < k <;> simp [firstGE, hy]
    | succ i =>
      by_cases hy : e.y < k
      · simp only [firstGE, hy, if_pos, ite_true, List.get_cons_succ]
        rw [ih hrest i (by simpa using h)]
        omega
      · have hlen : i < rest.length := by simpa using h
        have hmem : rest.get ⟨i, hlen⟩ ∈ rest := List.get_mem rest i hlen
        have hky : k ≤ (rest.get ⟨i, hlen⟩).y :=
          le_trans (not_lt.mp hy) (he _ hmem)
        have hget : ((e :: rest).get ⟨i + 1, h⟩).y = (rest.get ⟨i, hlen⟩).y := rfl
        rw [hget]
        simp only [firstGE, hy, ite_false, if_neg]
        constructor
        · intro hcon
          omega
        · intro hcon
          omega

theorem filter_lt_succ_split (k : Int) (l : List CooEdge) :
    (l.filter (fun e => decide (e.y < k + 1))).length =
      (l.filter (fun e => decide (e.y < k))).length +
      (l.filter (fun e => decide (e.y = k))).length := by
  induction l with
  | nil => rfl
  | cons e rest ih =>
    by_cases h1 : e.y < k
    · have h2 : e.y < k + 1 := by omega
      have h3 : ¬(e.y = k) := by omega
      simp [List.filter_cons, h1, h2, h3, ih]
      omega
    · by_cases h3 : e.y = k
      · have h2 : e.y < k + 1 := by omega
        simp [List.filter_cons, h1, h2, h3, ih]
        omega
      · have h2 : ¬(e.y < k + 1) := by omega
        simp [List.filter_cons, h1, h2, h3, ih]

theorem getD_map_range {β : Type} (n c : Nat) (f : Nat → β) (d : β) (hc : c < n) :
    ((List.range n).map f).getD c d = f c := by
  rw [List.getD_eq_getElem _ _ (by simpa using hc), List.getElem_map, List.getElem_range]

theorem map_getD_range_self {α : Type} (l : List α) (d : α) :
    (List.range l.length).map (fun i => l.getD i d) = l := by
  apply List.ext_getElem
  · simp
  · intro i h1 h2
    rw [List.getElem_map, List.getElem_range, List.getD_eq_getElem _ _ h2]

theorem flatMap_consecutive_ranges (o : Nat → Nat) :
    ∀ n, (∀ c, c < n → o c ≤ o (c + 1)) →
      o 0 ≤ o n ∧
      (List.range n).flatMap (fun c => List.range' (o c) (o (c + 1) - o c)) =
        List.range' (o 0) (o n - o 0) := by
  intro n
  induction n with
  | zero => intro _; exact ⟨le_refl _, by simp⟩
  | succ n ih =>
    intro hmono
    obtain ⟨hle, heq⟩ := ih (fun c hc => hmono c (Nat.lt_succ_of_lt hc))
    have hstep : o n ≤ o (n + 1) := hmono n (Nat.lt_succ_self n)
    refine ⟨le_trans hle hstep, ?_⟩
    rw [List.range_succ, List.flatMap_append, heq]
    have hsingle : ([n] : List Nat).flatMap
        (fun c => List.range' (o c) (o (c + 1) - o c)) =
        List.range' (o n) (o (n + 1) - o n) := by simp
    rw [hsingle]
    have hA := List.range'_append (o 0) (o n - o 0) (o (n + 1) - o n) 1
    rw [show o 0 + 1 * (o n - o 0) = o n from by omega] at hA
    rw [hA, show o (n + 1) - o n + (o n - o 0) = o (n + 1) - o 0 from by omega]

theorem fromCoo_offset (nodes : Nat) (pairs : List CooEdge) (c : Nat) (hc : c ≤ nodes) :
    cscOffsetAt (Csc.FromCoo nodes pairs) c =
      if c < nodes then firstGE (c : Int) (orderByColumn pairs) else pairs.length := by
  show ((List.range (nodes + 1)).map
      (fun cc => if cc < nodes then firstGE (cc : Int) (orderByColumn pairs)
        else pairs.length)).getD c 0 = _
  exact getD_map_range _ _ _ _ (by omega)

theorem fromCoo_offset_firstGE (nodes : Nat) (pairs : List CooEdge) (c : Nat)
    (hc : c ≤ nodes)
    (hrange : ∀ e ∈ pairs, 0 ≤ e.y ∧ e.y < (nodes : Int)) :
    cscOffsetAt (Csc.FromCoo nodes pairs) c = firstGE (c : Int) (orderByColumn pairs) := by
  rw [fromCoo_offset nodes pairs c hc]
  by_cases h : c < nodes
  · rw [if_pos h]
  · have hcn : c = nodes := by omega
    rw [if_neg h, hcn, firstGE_eq_filter_lt _ _ (orderByColumn_sorted pairs)]
    have hall : ∀ e ∈ orderByColumn pairs, decide (e.y < (nodes : Int)) = true := by
      intro e hee
      simpa using (hrange e ((orderByColumn_perm pairs).mem_iff.mp hee)).2
    rw [List.filter_eq_self.mpr hall]
    exact ((orderByColumn_perm pairs).length_eq).symm

/-- C2: after `Csc::FromCoo` on a COO graph ordered by destination ascending
(all destinations being valid vertex ids), `column_offsets[k]` for `k <
nodes` is exactly the position of the first edge whose destination is `>= k`
(every earlier edge has destination `< k` and no later one does);
`column_offsets[nodes] = edges` unconditionally; the offsets are monotone;
`column_offsets[k+1] - column_offsets[k]` is the in-degree of `k`; and a
vertex never referenced as a destination gets an empty range. -/
theorem csc_fromcoo_offsets_correct (nodes : Nat) (pairs : List CooEdge)
    (hsorted : List.Sorted colLe pairs)
    (hrange : ∀ e ∈ pairs, 0 ≤ e.y ∧ e.y < (nodes : Int)) :
    (∀ k, k < nodes → ∀ i (hi : i < pairs.length),
      (i < cscOffsetAt (Csc.FromCoo nodes pairs) k ↔ (pairs.get ⟨i, hi⟩).y < (k : Int))) ∧
    cscOffsetAt (Csc.FromCoo nodes pairs) nodes = pairs.length ∧
    (∀ k, k < nodes →
      cscOffsetAt (Csc.FromCoo nodes pairs) k ≤
        cscOffsetAt (Csc.FromCoo nodes pairs) (k + 1)) ∧
    (∀ k, k < nodes →
      cscOffsetAt (Csc.FromCoo nodes pairs) (k + 1) -
          cscOffsetAt (Csc.FromCoo nodes pairs) k =
        (pairs.filter (fun e => decide (e.y = (k : Int)))).length) ∧
    (∀ k, k < nodes → (∀ e ∈ pairs, e.y ≠ (k : Int)) →
      cscOffsetAt (Csc.FromCoo nodes pairs) (k + 1) =
        cscOffsetAt (Csc.FromCoo nodes pairs) k) := by
  have hord : orderByColumn pairs = pairs := orderByColumn_eq_of_sorted pairs hsorted
  have hco : ∀ c, c ≤ nodes →
      cscOffsetAt (Csc.FromCoo nodes pairs) c = firstGE (c : Int) pairs := by
    intro c hc
    rw [fromCoo_offset_firstGE nodes pairs c hc hrange, hord]
  have hcast : ∀ k : Nat, ((k + 1 : Nat) : Int) = (k : Int) + 1 := by
    intro k
    push_cast
    ring
  refine ⟨?_, ?_, ?_, ?_, ?_⟩
  · intro k hk i hi
    rw [hco k (le_of_lt hk)]
    exact (getElem_y_lt_iff (k : Int) pairs hsorted i hi).symm
  · rw [hco nodes (le_refl _), firstGE_eq_filter_lt _ _ hsorted]
    have hall : ∀ e ∈ pairs, decide (e.y < (nodes : Int)) = true := by
      intro e hee
      simpa using (hrange e hee).2
    rw [List.filter_eq_self.mpr hall]
  · intro k hk
    rw [hco k (by omega), hco (k + 1) (by omega)]
    apply firstGE_mono
    rw [hcast k]
    omega
  · intro k hk
    rw [hco k (by omega), hco (k + 1) (by omega),
      firstGE_eq_filter_lt _ _ hsorted, firstGE_eq_filter_lt _ _ hsorted,
      hcast k, filter_lt_succ_split]
    omega
  · intro k hk hno
    rw [hco k (by omega), hco (k + 1) (by omega),
      firstGE_eq_filter_lt _ _ hsorted, firstGE_eq_filter_lt _ _ hsorted,
      hcast k, filter_lt_succ_split]
    have hzero : (pairs.filter (fun e => decide (e.y = (k : Int)))).length = 0 := by
      rw [List.length_eq_zero, List.filter_eq_nil_iff]
      intro a ha
      simpa using hno a ha
    omega

/-- A destination-ascending COO edge list on 3 vertices. -/
def c2Pairs : List CooEdge := [⟨2, 0, 7⟩, ⟨0, 1, 10⟩, ⟨1, 1, 5⟩]

theorem csc_fromcoo_offsets_correct_witness :
    (∀ k : Nat, k < 3 → ∀ i (hi : i < c2Pairs.length),
      (i < cscOffsetAt (Csc.FromCoo 3 c2Pairs) k ↔ (c2Pairs.get ⟨i, hi⟩).y < (k : Int))) ∧
    cscOffsetAt (Csc.FromCoo 3 c2Pairs) 3 = c2Pairs.length ∧
    (∀ k : Nat, k < 3 →
      cscOffsetAt (Csc.FromCoo 3 c2Pairs) k ≤ cscOffsetAt (Csc.FromCoo 3 c2Pairs) (k + 1)) ∧
    (∀ k : Nat, k < 3 →
      cscOffsetAt (Csc.FromCoo 3 c2Pairs) (k + 1) - cscOffsetAt (Csc.FromCoo 3 c2Pairs) k =
        (c2Pairs.filter (fun e => decide (e.y = (k : Int)))).length) ∧
    (∀ k : Nat, k < 3 → (∀ e ∈ c2Pairs, e.y ≠ (k : Int)) →
      cscOffsetAt (Csc.FromCoo 3 c2Pairs) (k + 1) = cscOffsetAt (Csc.FromCoo 3 c2Pairs) k) :=
  csc_fromcoo_offsets_correct 3 c2Pairs (by decide) (by decide)

theorem fromCoo_expand_eq (nodes : Nat) (pairs : List CooEdge)
    (hrange : ∀ e ∈ pairs, 0 ≤ e.y ∧ e.y < (nodes : Int)) :
    (Csc.FromCoo nodes pairs).expand = (orderByColumn pairs).map tupleOf := by
  have hsort := orderByColumn_sorted pairs
  have hperm := orderByColumn_perm pairs
  have hrangeL : ∀ e ∈ orderByColumn pairs, 0 ≤ e.y ∧ e.y < (nodes : Int) :=
    fun e he => hrange e (hperm.mem_iff.mp he)
  have hco : ∀ c, c ≤ nodes → cscOffsetAt (Csc.FromCoo nodes pairs) c =
      firstGE (c : Int) (orderByColumn pairs) :=
    fun c hc => fromCoo_offset_firstGE nodes pairs c hc hrange
  have hmono : ∀ c, c < nodes → cscOffsetAt (Csc.FromCoo nodes pairs) c ≤
      cscOffsetAt (Csc.FromCoo nodes pairs) (c + 1) := by
    intro c hc
    rw [hco c (by omega), hco (c + 1) (by omega)]
    apply firstGE_mono
    push_cast
    omega
  have hlenL : cscOffsetAt (Csc.FromCoo nodes pairs) nodes =
      (orderByColumn pairs).length := by
    rw [hco nodes (le_refl _), firstGE_eq_filter_lt _ _ hsort]
    have hall : ∀ e ∈ orderByColumn pairs, decide (e.y < (nodes : Int)) = true := by
      intro e hee
      simpa using (hrangeL e hee).2
    rw [List.filter_eq_self.mpr hall]
  have hzero : cscOffsetAt (Csc.FromCoo nodes pairs) 0 = 0 := by
    rw [hco 0 (Nat.zero_le _)]
    exact firstGE_of_all_ge 0 _ (fun e he => by simpa using (hrangeL e he).1)
  have hseg : ∀ c ∈ List.range nodes,
      (List.range' (cscOffsetAt (Csc.FromCoo nodes pairs) c)
          (cscOffsetAt (Csc.FromCoo nodes pairs) (c + 1) -
            cscOffsetAt (Csc.FromCoo nodes pairs) c)).map
        (fun i => ((Csc.FromCoo nodes pairs).row_indices.getD i 0, (c : Int),
          (Csc.FromCoo nodes pairs).edge_values.getD i 0)) =
      (List.range' (cscOffsetAt (Csc.FromCoo nodes pairs) c)
          (cscOffsetAt (Csc.FromCoo nodes pairs) (c + 1) -
            cscOffsetAt (Csc.FromCoo nodes pairs) c)).map
        (fun i => tupleOf ((orderByColumn pairs).getD i dfltEdge)) := by
    intro c hcmem
    have hc : c < nodes := List.mem_range.mp hcmem
    apply List.map_congr_left
    intro i hi
    obtain ⟨hi1, hi2⟩ := List.mem_range'_1.mp hi
    have hi3 : i < cscOffsetAt (Csc.FromCoo nodes pairs) (c + 1) := by
      have := hmono c hc
      omega
    have hfge : i < firstGE ((c : Int) + 1) (orderByColumn pairs) := by
      have h1 := hco (c + 1) (by omega)
      have hc1 : (((c + 1 : Nat)) : Int) = (c : Int) + 1 := by push_cast; ring
      rw [h1, hc1] at hi3
      exact hi3
    have hilen : i < (orderByColumn pairs).length :=
      lt_of_lt_of_le hfge (firstGE_le_length _ _)
    have hylt : ((orderByColumn pairs).get ⟨i, hilen⟩).y < (c : Int) + 1 :=
      (getElem_y_lt_iff _ _ hsort i hilen).mpr hfge
    have hyge : ¬(((orderByColumn pairs).get ⟨i, hilen⟩).y < (c : Int)) := by
      rw [getElem_y_lt_iff _ _ hsort i hilen]
      rw [hco c (by omega)] at hi1
      omega
    have hy : ((orderByColumn pairs).get ⟨i, hilen⟩).y = (c : Int) := by omega
    have hrow : (Csc.FromCoo nodes pairs).row_indices.getD i 0 =
        ((orderByColumn pairs).get ⟨i, hilen⟩).x := by
      show ((orderByColumn pairs).map (fun e => e.x)).getD i 0 = _
      rw [List.getD_eq_getElem _ _ (by simpa using hilen), List.getElem_map]
      rfl
    have hval : (Csc.FromCoo nodes pairs).edge_values.getD i 0 =
        ((orderByColumn pairs).get ⟨i, hilen⟩).val := by
      show ((orderByColumn pairs).map (fun e => e.val)).getD i 0 = _
      rw [List.getD_eq_getElem _ _ (by simpa using hilen), List.getElem_map]
      rfl
    have hgetD : (orderByColumn pairs).getD i dfltEdge =
        (orderByColumn pairs).get ⟨i, hilen⟩ := by
      rw [List.getD_eq_getElem _ _ hilen]
      rfl
    rw [hrow, hval, hgetD]
    simp only [tupleOf]
    rw [hy]
  have hexp : (Csc.FromCoo nodes pairs).expand =
      (List.range nodes).flatMap (fun c =>
        (List.range' (cscOffsetAt (Csc.FromCoo nodes pairs) c)
            (cscOffsetAt (Csc.FromCoo nodes pairs) (c + 1) -
              cscOffsetAt (Csc.FromCoo nodes pairs) c)).map
          (fun i => tupleOf ((orderByColumn pairs).getD i dfltEdge))) := by
    show (List.range nodes).flatMap (fun c =>
        (List.range' (cscOffsetAt (Csc.FromCoo nodes pairs) c)
            (cscOffsetAt (Csc.FromCoo nodes pairs) (c + 1) -
              cscOffsetAt (Csc.FromCoo nodes pairs) c)).map
          (fun i => ((Csc.FromCoo nodes pairs).row_indices.getD i 0, (c : Int),
            (Csc.FromCoo nodes pairs).edge_values.getD i 0))) = _
    rw [List.flatMap_def, List.flatMap_def]
    exact congrArg List.flatten (List.map_congr_left hseg)
  rw [hexp]
  rw [(List.map_flatMap (fun i => tupleOf ((orderByColumn pairs).getD i dfltEdge))
      (fun c => List.range' (cscOffsetAt (Csc.FromCoo nodes pairs) c)
        (cscOffsetAt (Csc.FromCoo nodes pairs) (c + 1) -
          cscOffsetAt (Csc.FromCoo nodes pairs) c))
      (List.range nodes)).symm]
  obtain ⟨h0n, hjoin⟩ :=
    flatMap_consecutive_ranges (cscOffsetAt (Csc.FromCoo nodes pairs)) nodes hmono
  rw [hjoin, hzero, hlenL, Nat.sub_zero, ← List.range_eq_range']
  rw [show (fun i => tupleOf ((orderByColumn pairs).getD i dfltEdge)) =
      (tupleOf ∘ fun i => (orderByColumn pairs).getD i dfltEdge) from rfl]
  rw [← List.map_map, map_getD_range_self]

/-- C3: `Csc::FromCoo` is a bijection on edges: expanding the CSC arrays back
to edge tuples — for each column `c`, the pairs
`(row_indices[i], c, edge_values[i])` for `i` in
`[column_offsets[c], column_offsets[c+1])` — yields exactly the input COO
edge multiset (a permutation of it), with each weight travelling with its
edge. -/
theorem csc_fromcoo_roundtrip (nodes : Nat) (pairs : List CooEdge)
    (hrange : ∀ e ∈ pairs, 0 ≤ e.y ∧ e.y < (nodes : Int)) :
    ((Csc.FromCoo nodes pairs).expand).Perm (pairs.map tupleOf) := by
  rw [fromCoo_expand_eq nodes pairs hrange]
  exact (orderByColumn_perm pairs).map tupleOf

/-- An unordered COO edge list with weights on 3 vertices. -/
def c3Pairs : List CooEdge := [⟨0, 1, 10⟩, ⟨2, 0, 7⟩, ⟨1, 1, 5⟩]

theorem csc_fromcoo_roundtrip_witness :
    ((Csc.FromCoo 3 c3Pairs).expand).Perm (c3Pairs.map tupleOf) :=
  csc_fromcoo_roundtrip 3 c3Pairs (by decide)

end Gunrock
